import Mathlib

/-!
Shallow embedding of `sonus/pipeline.py`.

Matrices are `List (List ℚ)` (row-major).  Stateful progress printing is
modelled by explicit state passing of the written lines.  Fallible numpy
operations are modelled with `Option`/`Except`.  `np.argsort`'s default
quicksort has unspecified order on equal elements, so it is modelled as an
explicit function parameter.
-/

namespace Sonus

/-- Number of columns of a matrix, modelling `data.shape[1]` (valid for
rectangular data). -/
def ncols (data : List (List ℚ)) : ℕ := (data.headD []).length

/-! ### Differencer: `diff` (np.diff along the last axis) -/

/-- `np.diff` on a 1-D array: first-order difference.  On inputs of length
less than 2 numpy returns an empty array (no error). -/
def diff1 : List ℚ → List ℚ
  | [] => []
  | [_] => []
  | a :: b :: t => (b - a) :: diff1 (b :: t)

/-- `np.diff` on a 2-D array differences each row (axis = -1). -/
def diff2 (data : List (List ℚ)) : List (List ℚ) := data.map diff1

/-! ### Matrix Composer: `column_join` -/

/-- The assumed sample rate (Hz). -/
def sampleRate : ℚ := 16000

/-- `scipy.fft.fftfreq(n, 1/16000)[0:(n // 2)]`: the first `n / 2` points of
the frequency axis, `k * 16000 / n` for `k = 0, …, n/2 - 1`. -/
def fftX (n : ℕ) : List ℚ :=
  (List.range (n / 2)).map (fun (k : ℕ) => (k : ℚ) * sampleRate / (n : ℚ))

/-- `[True if low_pass <= x <= high_pass else False for x in fft_x]`. -/
def passMask (low high : ℚ) (n : ℕ) : List Bool :=
  (fftX n).map (fun x => decide (low ≤ x ∧ x ≤ high))

/-- Boolean-mask indexing `xs[mask]`. -/
def maskSelect {α : Type} : List α → List Bool → List α
  | [], _ => []
  | _ :: _, [] => []
  | a :: as, b :: bs => if b then a :: maskSelect as bs else maskSelect as bs

/-- `scipy.fft(row)`: the discrete Fourier transform of a row. -/
noncomputable def dft (row : List ℚ) : List ℂ :=
  (List.range row.length).map (fun (k : ℕ) =>
    ∑ j ∈ Finset.range row.length,
      (row.getD j 0 : ℂ) *
        Complex.exp (-2 * Real.pi * Complex.I * (k : ℂ) * (j : ℂ) / (row.length : ℂ)))

/-- The per-row body of `fft`'s loop: magnitudes of the first half of the
spectrum, scaled by `2 / n`, then band-masked. -/
noncomputable def fftRow (mask : List Bool) (row : List ℚ) : List ℝ :=
  maskSelect (((dft row).take (row.length / 2)).map
    (fun z => Complex.abs z * 2 / (row.length : ℝ))) mask

/-- `fft`'s single failure mode: the `assert high_pass > low_pass`. -/
inductive FftError where
  | invalidRange
  deriving DecidableEq

/-- `fft(data, low_pass, high_pass)` (the returned `fft_ys`; the optional
x-axis return is `passMask`-filtered `fftX`). -/
noncomputable def fft (data : List (List ℚ)) (low high : ℚ) :
    Except FftError (List (List ℝ)) :=
  if low < high then
    .ok (data.map (fftRow (passMask low high (ncols data))))
  else .error .invalidRange

/-! ### Row Reducer: `statistics` -/

/-- `np.sort` of a row (ascending); the sorting algorithm is irrelevant to
the sorted value sequence, which is unique. -/
def sortRow (r : List ℚ) : List ℚ := List.insertionSort (· ≤ ·) r

/-- `data.max(axis=1)` on one row (first element defaults are unreachable:
numpy raises on empty rows, which the callers gate on). -/
def rowMax (r : List ℚ) : ℚ := (r.max?).getD 0

/-- `data.min(axis=1)` on one row. -/
def rowMin (r : List ℚ) : ℚ := (r.min?).getD 0

/-- `data.mean(axis=1)` on one row. -/
def rowMean (r : List ℚ) : ℚ := r.sum / (r.length : ℚ)

/-- Population variance of one row (the quantity under `np.std`'s square
root). -/
def rowVar (r : List ℚ) : ℚ := ((r.map (fun x => (x - rowMean r) ^ 2)).sum) / (r.length : ℚ)

/-- The quantity under the square root of
`np.sqrt(np.sum((data ** 2) / data.shape[1], axis=1))` for one row. -/
def rowSumSq (nc : ℕ) (r : List ℚ) : ℚ := (r.map (fun x => x ^ 2 / (nc : ℚ))).sum

/-- `np.percentile(row, q, interpolation='linear')` (the default): linear
interpolation at virtual index `q * (n - 1) / 100`. -/
def percentileLin (r : List ℚ) (q : ℚ) : ℚ :=
  let s := sortRow r
  let h := q * ((r.length : ℚ) - 1) / 100
  let lo := s.getD (⌊h⌋).toNat 0
  let hi := s.getD (⌈h⌉).toNat 0
  lo + (h - (⌊h⌋ : ℚ)) * (hi - lo)

/-- `np.around` on a rational: round to the nearest integer, ties to even
(IEEE rounding, used by `np.percentile(..., interpolation='nearest')`). -/
def roundHalfEven (x : ℚ) : ℤ :=
  if Int.fract x = 1 / 2 then (if Even ⌊x⌋ then ⌊x⌋ else ⌊x⌋ + 1) else round x

/-- `np.percentile(row, q, interpolation='nearest')`: the sorted element at
the virtual index `q * (n - 1) / 100` rounded half-to-even. -/
def percentileNearest (r : List ℚ) (q : ℚ) : ℚ :=
  (sortRow r).getD (roundHalfEven (q * ((r.length : ℚ) - 1) / 100)).toNat 0

/-- One row of `statistics`'s result:
`[max, min, mean, std, rms, p0, p25, p50, p75]`. -/
noncomputable def rowStats (nc : ℕ) (r : List ℚ) : List ℝ :=
  [(rowMax r : ℝ), (rowMin r : ℝ), (rowMean r : ℝ),
   Real.sqrt (rowVar r : ℝ), Real.sqrt (rowSumSq nc r : ℝ),
   (percentileLin r 0 : ℝ), (percentileLin r 25 : ℝ),
   (percentileLin r 50 : ℝ), (percentileLin r 75 : ℝ)]

/-- `statistics(data)`: `none` models the error numpy raises when reducing
an empty axis (a row with zero columns). -/
noncomputable def statistics (data : List (List ℚ)) : Option (List (List ℝ)) :=
  if data.all (fun r => !r.isEmpty) then some (data.map (rowStats (ncols data))) else none

/-! ### Row Index Reducer: `arg_statistics` -/

/-- `np.argmax(row)`: index of the first occurrence of the maximum. -/
def argmaxIdx (r : List ℚ) : ℕ := r.findIdx (fun x => x = rowMax r)

/-- `np.argmin(row)`: index of the first occurrence of the minimum. -/
def argminIdx (r : List ℚ) : ℕ := r.findIdx (fun x => x = rowMin r)

/-- `np.argwhere(row == np.percentile(row, q, interpolation='nearest'))[0]`:
index of the first row element equal to the nearest-interpolation
percentile value. -/
def argPctNearest (r : List ℚ) (q : ℚ) : ℕ :=
  r.findIdx (fun x => x = percentileNearest r q)

/-- One row of `arg_statistics`' result.  `np.argsort(row)` (default
quicksort, unspecified order on equal elements) is an explicit parameter
`asort`; column 2 is `asort(row)[len(row) // 2]`. -/
def argStatRow (asort : List ℚ → List ℕ) (r : List ℚ) : List ℚ :=
  [(argmaxIdx r : ℚ), (argminIdx r : ℚ),
   ((asort r).getD (r.length / 2) 0 : ℚ),
   (argPctNearest r 0 : ℚ), (argPctNearest r 25 : ℚ),
   (argPctNearest r 50 : ℚ), (argPctNearest r 75 : ℚ)]

/-- `arg_statistics(data)`: `none` models the error numpy raises from
`argmax`/`argmin` on rows with zero columns. -/
def arg_statistics (asort : List ℚ → List ℕ) (data : List (List ℚ)) :
    Option (List (List ℚ)) :=
  if data.all (fun r => !r.isEmpty) then some (data.map (argStatRow asort)) else none

/-! ### Progress output: the stateful embeddings

`arg_statistics` and `fft` write per-row progress lines to stdout.  Stdout
is modelled as the list of `(row index, total)` pairs written so far; the
loop threads it explicitly, exactly as the Python interleaves writes with
the per-row computation. -/

/-- The row loop of `arg_statistics`, writing `(i, total)` before each row's
computation. -/
def argStatRowsSt (asort : List ℚ → List ℕ) (total : ℕ) :
    ℕ → List (ℕ × ℕ) → List (List ℚ) → List (ℕ × ℕ) × List (List ℚ)
  | _, out, [] => (out, [])
  | i, out, row :: rest =>
      let y := argStatRow asort row
      let p := argStatRowsSt asort total (i + 1) (out ++ [(i, total)]) rest
      (p.1, y :: p.2)

/-- `arg_statistics` with its stdout state made explicit: the vectorised
`argmax`/`argmin` run (and fail on empty rows) before anything is written;
after the loop one final completion line is written. -/
def argStatisticsSt (asort : List ℚ → List ℕ) (stdout : List (ℕ × ℕ))
    (data : List (List ℚ)) : List (ℕ × ℕ) × Option (List (List ℚ)) :=
  if data.all (fun r => !r.isEmpty) then
    let p := argStatRowsSt asort data.length 0 stdout data
    (p.1 ++ [(data.length, data.length)], some p.2)
  else (stdout, none)

/-- The row loop of `fft`, writing `(i, total)` before each row's
computation. -/
noncomputable def fftRowsSt (mask : List Bool) (total : ℕ) :
    ℕ → List (ℕ × ℕ) → List (List ℚ) → List (ℕ × ℕ) × List (List ℝ)
  | _, out, [] => (out, [])
  | i, out, row :: rest =>
      let y := fftRow mask row
      let p := fftRowsSt mask total (i + 1) (out ++ [(i, total)]) rest
      (p.1, y :: p.2)

/-- `fft` with its stdout state made explicit: nothing is written when the
range assertion fails; after the loop one final completion line is
written. -/
noncomputable def fftSt (stdout : List (ℕ × ℕ)) (data : List (List ℚ))
    (low high : ℚ) : List (ℕ × ℕ) × Except FftError (List (List ℝ)) :=
  if low < high then
    let p := fftRowsSt (passMask low high (ncols data)) data.length 0 stdout data
    (p.1 ++ [(data.length, data.length)], .ok p.2)
  else (stdout, .error .invalidRange)

/-! ## Helper lemmas -/

lemma diff1_length : ∀ l : List ℚ, (diff1 l).length = l.length - 1
  | [] => rfl
  | [_] => rfl
  | a :: b :: t => by
      simp only [diff1, List.length_cons, diff1_length (b :: t)]
      omega

lemma diff1_getD : ∀ (l : List ℚ) (i : ℕ), i + 1 < l.length →
    (diff1 l).getD i 0 = l.getD (i + 1) 0 - l.getD i 0
  | [], _, h => by simp at h
  | [_], _, h => by simp at h
  | a :: b :: t, 0, _ => by simp [diff1]
  | a :: b :: t, i + 1, h => by
      simpa [diff1] using diff1_getD (b :: t) i (by simpa using h)

/-- C6: for every numeric input of length ≥ 2 along the differenced axis,
`diff` returns an array one shorter with `value[i] = input[i+1] - input[i]`;
in particular `diff` on `[1, 3, 6, 10]` yields `[2, 3, 4]`. -/
theorem diff_first_order :
    (∀ l : List ℚ, 2 ≤ l.length →
      (diff1 l).length = l.length - 1 ∧
      ∀ i : ℕ, i + 1 < l.length →
        (diff1 l).getD i 0 = l.getD (i + 1) 0 - l.getD i 0) ∧
    diff1 [1, 3, 6, 10] = [2, 3, 4] :=
  ⟨fun l _ => ⟨diff1_length l, fun i hi => diff1_getD l i hi⟩, by norm_num [diff1]⟩

/-- C6 witness: the theorem instantiated at `[1, 3, 6, 10]`. -/
theorem diff_first_order_witness :
    2 ≤ ([1, 3, 6, 10] : List ℚ).length ∧
    ((diff1 [1, 3, 6, 10]).length = ([1, 3, 6, 10] : List ℚ).length - 1 ∧
      ∀ i : ℕ, i + 1 < ([1, 3, 6, 10] : List ℚ).length →
        (diff1 [1, 3, 6, 10]).getD i 0 =
          ([1, 3, 6, 10] : List ℚ).getD (i + 1) 0 - ([1, 3, 6, 10] : List ℚ).getD i 0) :=
  ⟨by decide, diff_first_order.1 [1, 3, 6, 10] (by decide)⟩

/-- C7 counterexample: on the length-1 input `[5]`, `np.diff` returns the
empty array — a normal result, not an InvalidInput failure.  (`np.diff` in
the code raises no error for short inputs; the embedding is accordingly a
total function.) -/
theorem diff_short_counterexample :
    ([(5 : ℚ)] : List ℚ).length < 2 ∧ diff1 [(5 : ℚ)] = [] := ⟨by decide, rfl⟩

/-- C7 amended: for every input whose length along the differenced axis is
less than 2, `diff` returns an empty array and raises no error. -/
theorem diff_short_amended (l : List ℚ) (h : l.length < 2) : diff1 l = [] := by
  match l with
  | [] => rfl
  | [_] => rfl
  | a :: b :: t => simp only [List.length_cons] at h; omega

/-- C7 amended witness: the amended theorem instantiated at `[7]`. -/
theorem diff_short_amended_witness :
    ([(7 : ℚ)] : List ℚ).length < 2 ∧ diff1 [(7 : ℚ)] = [] :=
  ⟨by decide, diff_short_amended [(7 : ℚ)] (by decide)⟩

/-- C5: `fft` fails with InvalidRange if and only if `high_pass ≤ low_pass`
(in particular for `low_pass = 20000, high_pass = 20`), and proceeds without
this error whenever `high_pass > low_pass`. -/
theorem fft_invalid_range_iff (data : List (List ℚ)) (low high : ℚ) :
    (fft data low high = .error .invalidRange ↔ high ≤ low) ∧
    fft data 20000 20 = .error .invalidRange := by
  constructor
  · unfold fft
    split
    · next hlt => exact iff_of_false (by simp) (not_le.2 hlt)
    · next hnlt => exact iff_of_true rfl (not_lt.1 hnlt)
  · unfold fft
    rw [if_neg (by norm_num)]

lemma maskSelect_length {α : Type} : ∀ (xs : List α) (bs : List Bool),
    xs.length = bs.length → (maskSelect xs bs).length = bs.countP id
  | [], [], _ => rfl
  | [], _ :: _, h => by simp at h
  | _ :: _, [], h => by simp at h
  | x :: xs, b :: bs, h => by
      cases b <;>
        simp [maskSelect, maskSelect_length xs bs (by simpa using h), List.countP_cons]

lemma dft_length (row : List ℚ) : (dft row).length = row.length := by
  simp only [dft, List.length_map, List.length_range]

lemma fftX_length (n : ℕ) : (fftX n).length = n / 2 := by
  simp only [fftX, List.length_map, List.length_range]

lemma passMask_length (low high : ℚ) (n : ℕ) : (passMask low high n).length = n / 2 := by
  simp only [passMask, List.length_map, fftX_length]

lemma fftRow_length (mask : List Bool) (row : List ℚ) (h : mask.length = row.length / 2) :
    (fftRow mask row).length = mask.countP id := by
  unfold fftRow
  rw [maskSelect_length]
  simp only [List.length_map, List.length_take, dft_length, h]
  omega

lemma countP_passMask (low high : ℚ) (n : ℕ) :
    (passMask low high n).countP id =
      (fftX n).countP (fun f => decide (low ≤ f ∧ f ≤ high)) := by
  simp [passMask, List.countP_map, Function.comp]

/-- General width computation for `fft`: every output row has as many
columns as there are points of the first half of the frequency axis
(`⌊n_cols/2⌋` of them, Nyquist excluded) inside `[low, high]`. -/
lemma fft_widths (data : List (List ℚ)) (low high : ℚ) (hlt : low < high)
    (hrect : ∀ r ∈ data, r.length = ncols data) :
    (fft data low high).map (List.map List.length) =
      .ok (List.replicate data.length
        ((fftX (ncols data)).countP (fun f => decide (low ≤ f ∧ f ≤ high)))) := by
  unfold fft
  rw [if_pos hlt]
  show Except.ok _ = _
  rw [Except.ok.injEq, List.map_map, List.eq_replicate_iff]
  refine ⟨by simp, ?_⟩
  intro b hb
  rw [List.mem_map] at hb
  obtain ⟨r, hr, rfl⟩ := hb
  rw [Function.comp_apply, fftRow_length _ r (by rw [passMask_length, hrect r hr]),
    countP_passMask]

/-- A 1×32 Sample Matrix (one window of 32 time samples). -/
def data32 : List (List ℚ) := [List.replicate 32 0]

/-- C1 counterexample: at `low_pass = 0`, `high_pass = 8000`, `n_cols = 32`,
the output of `fft` has 16 columns, not 17: the code keeps spectrum indices
`0 : n_cols // 2` (bins 0, 500, …, 7500 Hz), excluding the Nyquist bin at
index `⌊n_cols/2⌋` (8000 Hz) that the claim's inclusive range
`0..⌊n_cols/2⌋` would include. -/
theorem fft_width_counterexample :
    (fft data32 0 8000).map (List.map List.length) = .ok [16] ∧ (16 : ℕ) ≠ 17 := by
  constructor
  · rw [fft_widths data32 0 8000 (by norm_num) (by decide)]
    have hn : ncols data32 = 32 := rfl
    have hall : ∀ f ∈ fftX (ncols data32), (decide ((0 : ℚ) ≤ f ∧ f ≤ 8000)) = true := by
      intro f hf
      rw [hn] at hf
      simp only [fftX, sampleRate, List.mem_map, List.mem_range] at hf
      obtain ⟨k, hk, rfl⟩ := hf
      rw [decide_eq_true_eq]
      have hk15 : (k : ℚ) ≤ 15 := by exact_mod_cast Nat.le_of_lt_succ hk
      have hknn : (0 : ℚ) ≤ (k : ℚ) := by positivity
      push_cast
      constructor
      · positivity
      · rw [div_le_iff₀ (by norm_num)]
        nlinarith
    have hc : ((fftX (ncols data32)).countP (fun f => decide ((0 : ℚ) ≤ f ∧ f ≤ 8000))) = 16 := by
      rw [List.countP_eq_length.2 hall, fftX_length, hn]
    rw [hc]
    rfl
  · decide

/-- C1 amended: for every Sample Matrix, the output width of `fft` equals
the number of frequency-axis points `f` at indices `0..⌊n_cols/2⌋ - 1`
(the first half of the spectrum, Nyquist bin excluded) with
`low_pass ≤ f ≤ high_pass`; for `low_pass = 0`, `high_pass = 8000`,
`n_cols = 32` at the 16000 Hz sample rate this width is 16
(bins 0, 500, …, 7500 Hz). -/
theorem fft_width_amended (data : List (List ℚ)) (low high : ℚ) (hlt : low < high)
    (hrect : ∀ r ∈ data, r.length = ncols data) :
    (fftX (ncols data)).length = ncols data / 2 ∧
    (fft data low high).map (List.map List.length) =
      .ok (List.replicate data.length
        ((fftX (ncols data)).countP (fun f => decide (low ≤ f ∧ f ≤ high)))) :=
  ⟨fftX_length (ncols data), fft_widths data low high hlt hrect⟩

/-- C1 amended witness: the amended theorem at the 1×32 matrix with the
band `[0, 8000]`. -/
theorem fft_width_amended_witness :
    ((0 : ℚ) < 8000) ∧ (∀ r ∈ data32, r.length = ncols data32) ∧
    ((fftX (ncols data32)).length = ncols data32 / 2 ∧
      (fft data32 0 8000).map (List.map List.length) =
        .ok (List.replicate data32.length
          ((fftX (ncols data32)).countP (fun f => decide ((0 : ℚ) ≤ f ∧ f ≤ 8000))))) :=
  ⟨by norm_num, by decide, fft_width_amended data32 0 8000 (by norm_num) (by decide)⟩

lemma sortRow_perm (r : List ℚ) : List.Perm (sortRow r) r := List.perm_insertionSort _ r

lemma sortRow_sorted (r : List ℚ) : (sortRow r).Sorted (· ≤ ·) :=
  List.sorted_insertionSort _ r

lemma sortRow_length (r : List ℚ) : (sortRow r).length = r.length :=
  (sortRow_perm r).length_eq

/-- The head of the ascending sort of a nonempty row is the row minimum. -/
lemma sortRow_head_min (r : List ℚ) (h : r ≠ []) : (sortRow r).getD 0 0 = rowMin r := by
  cases hsr : sortRow r with
  | nil =>
      have hp := sortRow_perm r
      rw [hsr] at hp
      exact absurd hp.symm.eq_nil h
  | cons x t =>
      have hmem : x ∈ r := (sortRow_perm r).mem_iff.1 (by rw [hsr]; exact List.mem_cons_self x t)
      have hle : ∀ b ∈ r, x ≤ b := by
        intro b hb
        have hb' : b ∈ sortRow r := (sortRow_perm r).mem_iff.2 hb
        rw [hsr] at hb'
        rcases List.mem_cons.1 hb' with hbx | hbt
        · exact hbx ▸ le_refl x
        · have hs := sortRow_sorted r
          rw [hsr] at hs
          exact List.rel_of_sorted_cons hs b hbt
      have hmin : r.min? = some x := by
        haveI : Std.Antisymm ((· : ℚ) ≤ ·) := ⟨fun h1 h2 => le_antisymm h1 h2⟩
        exact (List.min?_eq_some_iff (fun a => le_refl a) (fun a b => min_choice a b)
          (fun a b c => le_min_iff)).2 ⟨hmem, hle⟩
      rw [rowMin, hmin]
      rfl

lemma percentileLin_zero (r : List ℚ) : percentileLin r 0 = (sortRow r).getD 0 0 := by
  unfold percentileLin
  norm_num

/-- C10: for every Sample Matrix with at least one column, the Row Reducer's
p0 column (output column 5) equals its min column (output column 1)
row-wise: the 0th percentile (linear interpolation at virtual index 0) is
the row minimum. -/
theorem statistics_p0_eq_min (data : List (List ℚ)) (out : List (List ℝ))
    (h : statistics data = some out) : ∀ y ∈ out, y.getD 5 0 = y.getD 1 0 := by
  unfold statistics at h
  split at h
  · next hall =>
      rw [Option.some.injEq] at h
      subst h
      intro y hy
      rw [List.mem_map] at hy
      obtain ⟨r, hr, rfl⟩ := hy
      have hne : r ≠ [] := by
        have := (List.all_eq_true.1 hall) r hr
        simpa [List.isEmpty_iff] using this
      show (percentileLin r 0 : ℝ) = (rowMin r : ℝ)
      rw [percentileLin_zero, sortRow_head_min r hne]
  · exact absurd h (by simp)

/-- C10 witness: the theorem at the 1×3 matrix `[[3, 1, 2]]`. -/
theorem statistics_p0_eq_min_witness :
    statistics [[3, 1, 2]] = some [rowStats (ncols [[3, 1, 2]]) [3, 1, 2]] ∧
    (rowStats (ncols [[3, 1, 2]]) [3, 1, 2]).getD 5 0 =
      (rowStats (ncols [[3, 1, 2]]) [3, 1, 2]).getD 1 0 :=
  ⟨rfl, statistics_p0_eq_min [[3, 1, 2]] [rowStats (ncols [[3, 1, 2]]) [3, 1, 2]] rfl
    (rowStats (ncols [[3, 1, 2]]) [3, 1, 2]) (List.mem_singleton.2 rfl)⟩

/-! Lemmas on numpy's nearest-interpolation percentile. -/

/-- `roundHalfEven` rounds to a nearest integer: its distance to the
argument is at most 1/2. -/
lemma roundHalfEven_dist (x : ℚ) : |(roundHalfEven x : ℚ) - x| ≤ 1 / 2 := by
  unfold roundHalfEven
  split
  · next hf =>
      rw [Int.fract] at hf
      have hx : x = (⌊x⌋ : ℚ) + 1 / 2 := by linarith
      split
      · rw [abs_le]
        constructor <;> linarith
      · rw [abs_le]
        push_cast
        constructor <;> linarith
  · rw [abs_sub_comm]
    exact abs_sub_round x

lemma roundHalfEven_nonneg (x : ℚ) (hx : 0 ≤ x) : 0 ≤ roundHalfEven x := by
  by_contra hneg
  push_neg at hneg
  have h1 : roundHalfEven x ≤ -1 := by omega
  have h1q : ((roundHalfEven x : ℤ) : ℚ) ≤ -1 := by exact_mod_cast h1
  have hd := (abs_le.1 (roundHalfEven_dist x)).1
  linarith

lemma roundHalfEven_le (x : ℚ) (B : ℤ) (hx : x ≤ (B : ℚ)) : roundHalfEven x ≤ B := by
  by_contra hgt
  push_neg at hgt
  have h1 : B + 1 ≤ roundHalfEven x := by omega
  have h1q : ((B : ℤ) : ℚ) + 1 ≤ ((roundHalfEven x : ℤ) : ℚ) := by exact_mod_cast h1
  have hd := (abs_le.1 (roundHalfEven_dist x)).2
  linarith

/-- The rank `q * (n - 1) / 100` used by the nearest-interpolation
percentile. -/
def rankOf (r : List ℚ) (q : ℚ) : ℚ := q * ((r.length : ℚ) - 1) / 100

lemma rank_index_lt (r : List ℚ) (h : r ≠ []) (q : ℚ) (hq0 : 0 ≤ q) (hq100 : q ≤ 100) :
    (roundHalfEven (rankOf r q)).toNat < r.length := by
  have hn : 1 ≤ r.length := List.length_pos.2 h
  have hn1 : (1 : ℚ) ≤ (r.length : ℚ) := by exact_mod_cast hn
  have hx0 : 0 ≤ rankOf r q := by
    unfold rankOf
    apply div_nonneg (mul_nonneg hq0 (by linarith)) (by norm_num)
  have hxB : rankOf r q ≤ (((r.length : ℤ) - 1 : ℤ) : ℚ) := by
    unfold rankOf
    push_cast
    rw [div_le_iff₀ (by norm_num)]
    nlinarith
  have h1 := roundHalfEven_nonneg _ hx0
  have h2 := roundHalfEven_le _ _ hxB
  omega

lemma percentileNearest_eq_sorted_rank (r : List ℚ) (q : ℚ) :
    percentileNearest r q = (sortRow r).getD (roundHalfEven (rankOf r q)).toNat 0 := rfl

/-- The nearest-interpolation percentile of a nonempty row is one of the
row's actual values. -/
lemma percentileNearest_mem (r : List ℚ) (h : r ≠ []) (q : ℚ) (hq0 : 0 ≤ q)
    (hq100 : q ≤ 100) : percentileNearest r q ∈ r := by
  rw [percentileNearest_eq_sorted_rank]
  have hlt : (roundHalfEven (rankOf r q)).toNat < (sortRow r).length := by
    rw [sortRow_length]
    exact rank_index_lt r h q hq0 hq100
  rw [List.getD_eq_getElem _ _ hlt]
  exact (sortRow_perm r).mem_iff.1 (List.getElem_mem hlt)

/-- First-match characterisation of `argPctNearest`: for a nonempty row it
is a valid index, the row element there equals the percentile value, and no
earlier element does. -/
lemma argPctNearest_first (r : List ℚ) (h : r ≠ []) (q : ℚ) (hq0 : 0 ≤ q)
    (hq100 : q ≤ 100) :
    argPctNearest r q < r.length ∧
    r.getD (argPctNearest r q) 0 = percentileNearest r q ∧
    (∀ j, j < argPctNearest r q → r.getD j 0 ≠ percentileNearest r q) := by
  have hmem := percentileNearest_mem r h q hq0 hq100
  have hex : ∃ x ∈ r, (fun x => decide (x = percentileNearest r q)) x = true :=
    ⟨percentileNearest r q, hmem, by simp⟩
  have hlt : argPctNearest r q < r.length := List.findIdx_lt_length_of_exists hex
  refine ⟨hlt, ?_, ?_⟩
  · have := @List.findIdx_getElem _ (fun x => decide (x = percentileNearest r q)) r hlt
    rw [List.getD_eq_getElem _ _ hlt]
    exact of_decide_eq_true this
  · intro j hj
    have hjlen : j < r.length := lt_trans hj hlt
    have := @List.not_of_lt_findIdx _ (fun x => decide (x = percentileNearest r q)) r j hj
    rw [List.getD_eq_getElem _ _ hjlen]
    simpa using this

/-- The percentile levels used by `arg_statistics`, in output-column order
(columns 3, 4, 5, 6). -/
def pcts : List ℚ := [0, 25, 50, 75]

/-- C2: for every row of the Sample Matrix and each pX in
{p0, p25, p50, p75}, the index entry is the index of the first row element
equal to the nearest-interpolation percentile value — an actual data value
whose rank `pX * (n_cols - 1) / 100` is rounded to a nearest integer
(numpy rounds ties to even); when several columns hold that value, the
first-occurrence index is returned. -/
theorem arg_statistics_pct_first (asort : List ℚ → List ℕ) (data : List (List ℚ))
    (out : List (List ℚ)) (h : arg_statistics asort data = some out)
    (i k : ℕ) (hi : i < data.length) (hk : k < 4) :
    ∃ m : ℕ,
      (out.getD i []).getD (k + 3) 0 = (m : ℚ) ∧
      m < (data.getD i []).length ∧
      (data.getD i []).getD m 0 = percentileNearest (data.getD i []) (pcts.getD k 0) ∧
      (∀ j, j < m →
        (data.getD i []).getD j 0 ≠ percentileNearest (data.getD i []) (pcts.getD k 0)) ∧
      percentileNearest (data.getD i []) (pcts.getD k 0) ∈ data.getD i [] ∧
      |((roundHalfEven (rankOf (data.getD i []) (pcts.getD k 0)) : ℤ) : ℚ) -
          rankOf (data.getD i []) (pcts.getD k 0)| ≤ 1 / 2 := by
  unfold arg_statistics at h
  split at h
  · next hall =>
      rw [Option.some.injEq] at h
      subst h
      have hilen : i < (data.map (argStatRow asort)).length := by simpa using hi
      have hget : (data.map (argStatRow asort)).getD i [] = argStatRow asort (data.getD i []) := by
        rw [List.getD_eq_getElem _ _ hilen, List.getElem_map, List.getD_eq_getElem _ _ hi]
      have hrmem : data.getD i [] ∈ data := by
        rw [List.getD_eq_getElem _ _ hi]
        exact List.getElem_mem hi
      have hne : data.getD i [] ≠ [] := by
        have := (List.all_eq_true.1 hall) _ hrmem
        simpa [List.isEmpty_iff] using this
      rw [hget]
      have core : ∀ q : ℚ, 0 ≤ q → q ≤ 100 →
          argPctNearest (data.getD i []) q < (data.getD i []).length ∧
          (data.getD i []).getD (argPctNearest (data.getD i []) q) 0 =
            percentileNearest (data.getD i []) q ∧
          (∀ j, j < argPctNearest (data.getD i []) q →
            (data.getD i []).getD j 0 ≠ percentileNearest (data.getD i []) q) ∧
          percentileNearest (data.getD i []) q ∈ data.getD i [] ∧
          |((roundHalfEven (rankOf (data.getD i []) q) : ℤ) : ℚ) -
              rankOf (data.getD i []) q| ≤ 1 / 2 := by
        intro q hq0 hq100
        obtain ⟨h1, h2, h3⟩ := argPctNearest_first (data.getD i []) hne q hq0 hq100
        exact ⟨h1, h2, h3, percentileNearest_mem (data.getD i []) hne q hq0 hq100,
          roundHalfEven_dist _⟩
      interval_cases k
      · exact ⟨argPctNearest (data.getD i []) (pcts.getD 0 0), rfl,
          core (pcts.getD 0 0) (by norm_num [pcts]) (by norm_num [pcts])⟩
      · exact ⟨argPctNearest (data.getD i []) (pcts.getD 1 0), rfl,
          core (pcts.getD 1 0) (by norm_num [pcts]) (by norm_num [pcts])⟩
      · exact ⟨argPctNearest (data.getD i []) (pcts.getD 2 0), rfl,
          core (pcts.getD 2 0) (by norm_num [pcts]) (by norm_num [pcts])⟩
      · exact ⟨argPctNearest (data.getD i []) (pcts.getD 3 0), rfl,
          core (pcts.getD 3 0) (by norm_num [pcts]) (by norm_num [pcts])⟩
  · exact absurd h (by simp)

/-- The trivial stand-in for `np.argsort` used to instantiate theorems that
hold for every argsort function. -/
def asortNil : List ℚ → List ℕ := fun _ => []

/-- C2 witness: the theorem at the 1×2 matrix `[[2, 1]]`, row 0, p75
(column 6). -/
theorem arg_statistics_pct_first_witness :
    arg_statistics asortNil [[2, 1]] = some [argStatRow asortNil [2, 1]] ∧
    0 < ([[(2 : ℚ), 1]] : List (List ℚ)).length ∧ 3 < 4 ∧
    (∃ m : ℕ,
      (([argStatRow asortNil [2, 1]]).getD 0 []).getD (3 + 3) 0 = (m : ℚ) ∧
      m < (([[(2 : ℚ), 1]] : List (List ℚ)).getD 0 []).length ∧
      (([[(2 : ℚ), 1]] : List (List ℚ)).getD 0 []).getD m 0 =
        percentileNearest (([[(2 : ℚ), 1]] : List (List ℚ)).getD 0 []) (pcts.getD 3 0) ∧
      (∀ j, j < m →
        (([[(2 : ℚ), 1]] : List (List ℚ)).getD 0 []).getD j 0 ≠
          percentileNearest (([[(2 : ℚ), 1]] : List (List ℚ)).getD 0 []) (pcts.getD 3 0)) ∧
      percentileNearest (([[(2 : ℚ), 1]] : List (List ℚ)).getD 0 []) (pcts.getD 3 0) ∈
        ([[(2 : ℚ), 1]] : List (List ℚ)).getD 0 [] ∧
      |((roundHalfEven (rankOf (([[(2 : ℚ), 1]] : List (List ℚ)).getD 0 []) (pcts.getD 3 0)) : ℤ) : ℚ) -
          rankOf (([[(2 : ℚ), 1]] : List (List ℚ)).getD 0 []) (pcts.getD 3 0)| ≤ 1 / 2) :=
  ⟨rfl, by decide, by decide,
    arg_statistics_pct_first asortNil [[2, 1]] [argStatRow asortNil [2, 1]] rfl 0 3
      (by decide) (by decide)⟩

/-- C8: each of `statistics`, `arg_statistics` and `fft` returns a matrix
with exactly as many rows as its input matrix. -/
theorem row_count_preserved :
    (∀ (data : List (List ℚ)) (out : List (List ℝ)),
      statistics data = some out → out.length = data.length) ∧
    (∀ (asort : List ℚ → List ℕ) (data : List (List ℚ)) (out : List (List ℚ)),
      arg_statistics asort data = some out → out.length = data.length) ∧
    (∀ (data : List (List ℚ)) (low high : ℚ) (out : List (List ℝ)),
      fft data low high = .ok out → out.length = data.length) := by
  refine ⟨?_, ?_, ?_⟩
  · intro data out h
    unfold statistics at h
    split at h
    · rw [Option.some.injEq] at h
      subst h
      exact List.length_map _ _
    · exact absurd h (by simp)
  · intro asort data out h
    unfold arg_statistics at h
    split at h
    · rw [Option.some.injEq] at h
      subst h
      exact List.length_map _ _
    · exact absurd h (by simp)
  · intro data low high out h
    unfold fft at h
    split at h
    · rw [Except.ok.injEq] at h
      subst h
      exact List.length_map _ _
    · exact absurd h (by simp)

/-- C8 witness: the three parts applied at concrete 1-row matrices. -/
theorem row_count_preserved_witness :
    (statistics [[1, 2]] = some [rowStats (ncols [[1, 2]]) [1, 2]] ∧
      ([rowStats (ncols [[1, 2]]) [1, 2]]).length = ([[(1 : ℚ), 2]] : List (List ℚ)).length) ∧
    (arg_statistics (fun _ => ([] : List ℕ)) [[1]] =
        some [argStatRow (fun _ => ([] : List ℕ)) [1]] ∧
      ([argStatRow (fun _ => ([] : List ℕ)) [1]]).length = ([[(1 : ℚ)]] : List (List ℚ)).length) ∧
    (fft [[1, 2]] 0 8000 = .ok [fftRow (passMask 0 8000 (ncols [[1, 2]])) [1, 2]] ∧
      ([fftRow (passMask 0 8000 (ncols [[1, 2]])) [1, 2]]).length =
        ([[(1 : ℚ), 2]] : List (List ℚ)).length) :=
  ⟨⟨rfl, row_count_preserved.1 [[1, 2]] [rowStats (ncols [[1, 2]]) [1, 2]] rfl⟩,
   ⟨rfl, row_count_preserved.2.1 (fun _ => ([] : List ℕ)) [[1]]
      [argStatRow (fun _ => ([] : List ℕ)) [1]] rfl⟩,
   ⟨by unfold fft; rw [if_pos (by norm_num)]; rfl,
    row_count_preserved.2.2 [[1, 2]] 0 8000 [fftRow (passMask 0 8000 (ncols [[1, 2]])) [1, 2]]
      (by unfold fft; rw [if_pos (by norm_num)]; rfl)⟩⟩

lemma argStatRowsSt_snd (asort : List ℚ → List ℕ) (total : ℕ) :
    ∀ (rows : List (List ℚ)) (i : ℕ) (out : List (ℕ × ℕ)),
      (argStatRowsSt asort total i out rows).2 = rows.map (argStatRow asort)
  | [], _, _ => rfl
  | row :: rest, i, out => by
      simp only [argStatRowsSt, List.map_cons,
        argStatRowsSt_snd asort total rest (i + 1) (out ++ [(i, total)])]

lemma fftRowsSt_snd (mask : List Bool) (total : ℕ) :
    ∀ (rows : List (List ℚ)) (i : ℕ) (out : List (ℕ × ℕ)),
      (fftRowsSt mask total i out rows).2 = rows.map (fftRow mask)
  | [], _, _ => rfl
  | row :: rest, i, out => by
      simp only [fftRowsSt, List.map_cons,
        fftRowsSt_snd mask total rest (i + 1) (out ++ [(i, total)])]

/-- C9: all five components are pure functions of their arguments in this
embedding — repeated calls with identical arguments are definitionally
equal — and for the two components that write progress text
(`arg_statistics` and `fft`), the value returned by the stateful embedding
is independent of the output-stream state and equal to the pure function of
the input. -/
theorem progress_stream_no_effect :
    (∀ (asort : List ℚ → List ℕ) (stdout : List (ℕ × ℕ)) (data : List (List ℚ)),
      (argStatisticsSt asort stdout data).2 = arg_statistics asort data) ∧
    (∀ (stdout : List (ℕ × ℕ)) (data : List (List ℚ)) (low high : ℚ),
      (fftSt stdout data low high).2 = fft data low high) := by
  constructor
  · intro asort stdout data
    unfold argStatisticsSt arg_statistics
    split
    · simp only [argStatRowsSt_snd]
    · rfl
  · intro stdout data low high
    unfold fftSt fft
    split
    · simp only [fftRowsSt_snd]
    · rfl

end Sonus
